import Mathlib

/-!
# Verification of `minimizer-queue` (monotone sliding-window minimizer queue)

Shallow embedding of `src/lib.rs`.  The crate provides two variants of the
same monotone-deque algorithm:

* `MinimizerQueue<T>`: a deque of `(value, hash, slot)` triples;
* `ImplicitMinimizerQueue`: a deque of `(hash, slot)` pairs.

Modelling choices:

* The deque `VecDeque<(T, u64, u16)>` becomes a `List (T × Nat × Nat)`,
  front of the deque at the head of the list.
* Hashes (`u64`) are modelled as `Nat`; the code only ever compares hashes,
  so no overflow can arise there.
* `width` and `pos` (`u16` / `StrengthReducedU16`) are modelled as `Nat`.
  The single place where `u16` overflow is reachable is the relative-position
  computation `width - pos + slot`, whose sum can exceed `u16::MAX` when
  `width > 32768`; release-mode Rust wraps modulo `2^16`, which the model
  makes explicit (`% 65536`).  The subtraction `width - pos` never
  underflows on states with `pos < width` (all reachable states), and
  `Nat` subtraction agrees with it there.
* Accessors that `debug_assert!(!deq.is_empty())` and then index the deque
  return `Option`, with `none` standing for the assertion/panic on an
  empty deque.
* The hash builder (`wyhash2`, an external crate) is modelled as a function
  field `hashf : T → Nat`; `with_seed` is modelled from the spec below.
-/

/-- `MinimizerQueue<T, S>` from `src/lib.rs`: deque of
`(value, hash, slot)` triples, the width, the hash builder, and the slot
counter `pos`. -/
structure MinimizerQueue (T : Type) where
  deq : List (T × Nat × Nat)
  width : Nat
  hashf : T → Nat
  pos : Nat

namespace MinimizerQueue

variable {T : Type}

/-- `MinimizerQueue::with_hasher`: empty deque, given width and hasher,
slot counter 0. -/
def with_hasher (width : Nat) (hashf : T → Nat) : MinimizerQueue T :=
  { deq := [], width := width, hashf := hashf, pos := 0 }

/-- Modelled from the spec: `MinimizerQueue::with_seed` builds the default
`WyHash` hasher from a seed; the hash algorithm lives in the external
`wyhash2` crate, so it is modelled as an arbitrary seed-indexed family of
hash functions. -/
def with_seed (hashFamily : Nat → T → Nat) (width seed : Nat) : MinimizerQueue T :=
  with_hasher width (hashFamily seed)

/-- `MinimizerQueue::is_empty`. -/
def is_empty (q : MinimizerQueue T) : Bool :=
  q.deq.isEmpty

/-- `MinimizerQueue::multiple_mins`: at least two entries and the first two
share their hash. -/
def multiple_mins (q : MinimizerQueue T) : Bool :=
  match q.deq with
  | a :: b :: _ => a.2.1 == b.2.1
  | _ => false

/-- `MinimizerQueue::get_min`: value of the front entry; `none` models the
`debug_assert!`/panic on an empty deque. -/
def get_min (q : MinimizerQueue T) : Option T :=
  match q.deq with
  | e :: _ => some e.1
  | [] => none

/-- The relative-position computation
`(self.width.get() - self.pos + pos) % self.width` performed in `u16`
arithmetic: the sum wraps modulo `2^16` (release-mode semantics) before the
reduction modulo the width. -/
def relPos (width pos slot : Nat) : Nat :=
  ((width - pos + slot) % 65536) % width

/-- `MinimizerQueue::get_min_pos`: front value together with its relative
position in the window. -/
def get_min_pos (q : MinimizerQueue T) : Option (T × Nat) :=
  match q.deq with
  | e :: _ => some (e.1, relPos q.width q.pos e.2.2)
  | [] => none

/-- The `while` loop of `MinimizerQueue::get_inner_min_pos`, scanning the
tail of the deque while the entries still carry the minimal hash, carrying
the current best value and best relative position. -/
def innerLoop (width startv hash : Nat) :
    T → Nat → List (T × Nat × Nat) → T × Nat × Option (T × Nat)
  | x, xp, [] => (x, xp, none)
  | x, xp, e :: rest =>
    if e.2.1 = hash then
      let yp := ((startv + e.2.2) % 65536) % width
      if xp < width - 1 - yp then innerLoop width startv hash e.1 yp rest
      else if xp = width - 1 - yp then (x, xp, some (e.1, yp))
      else (x, xp, none)
    else (x, xp, none)

/-- `MinimizerQueue::get_inner_min_pos`: innermost minimizer, its relative
position, and a second choice in case of a centrality tie. -/
def get_inner_min_pos (q : MinimizerQueue T) :
    Option (T × Nat × Option (T × Nat)) :=
  match q.deq with
  | [] => none
  | e :: rest =>
    let startv := q.width - q.pos
    some (innerLoop q.width startv e.2.1 e.1 (((startv + e.2.2) % 65536) % q.width) rest)

end MinimizerQueue

/-- The index computed by the truncation loop of `insert_with_hash` /
`insert_hash`:
`let mut i = deq.len(); while i > 0 && hash < deq[i-1] { i -= 1 }`.
Generic in the accessor `hf` extracting the hash from an entry (`.1` of the
`u64` component), since the two Rust variants differ only in the entry
type. -/
def truncLen {α : Type} (hf : α → Nat) (hash : Nat) (deq : List α) : Nat → Nat
  | 0 => 0
  | i + 1 =>
    match deq.get? i with
    | some e => if hash < hf e then truncLen hf hash deq i else i + 1
    | none => i + 1

namespace MinimizerQueue

variable {T : Type}

/-- `MinimizerQueue::insert_with_hash`: pop the front entry if its slot
equals the slot counter, truncate the trailing entries with a strictly
greater hash, push the new entry with the current slot counter, and advance
the counter modulo the width. -/
def insert_with_hash (q : MinimizerQueue T) (x : T) (hash : Nat) : MinimizerQueue T :=
  let deq1 :=
    match q.deq with
    | e :: rest => if e.2.2 = q.pos then rest else q.deq
    | [] => q.deq
  let deq2 := deq1.take (truncLen (fun e => e.2.1) hash deq1 deq1.length)
  { q with deq := deq2 ++ [(x, hash, q.pos)], pos := (q.pos + 1) % q.width }

/-- `MinimizerQueue::insert`: hash the value with the stored hasher and
insert. -/
def insert (q : MinimizerQueue T) (x : T) : MinimizerQueue T :=
  q.insert_with_hash x (q.hashf x)

/-- `MinimizerQueue::clear`: empty the deque, everything else unchanged. -/
def clear (q : MinimizerQueue T) : MinimizerQueue T :=
  { q with deq := [] }

end MinimizerQueue

/-- `ImplicitMinimizerQueue<S>` from `src/lib.rs`: deque of `(hash, slot)`
pairs, the width and the slot counter.  The hash builder field is only used
by the generic `insert<T: Hash>` wrapper and is not modelled; all claims
drive this queue through `insert_hash`. -/
structure ImplicitMinimizerQueue where
  deq : List (Nat × Nat)
  width : Nat
  pos : Nat

namespace ImplicitMinimizerQueue

/-- `ImplicitMinimizerQueue::with_hasher` (the hasher itself not modelled):
empty deque, given width, slot counter 0. -/
def with_hasher (width : Nat) : ImplicitMinimizerQueue :=
  { deq := [], width := width, pos := 0 }

/-- `ImplicitMinimizerQueue::is_empty`. -/
def is_empty (q : ImplicitMinimizerQueue) : Bool :=
  q.deq.isEmpty

/-- `ImplicitMinimizerQueue::multiple_mins`. -/
def multiple_mins (q : ImplicitMinimizerQueue) : Bool :=
  match q.deq with
  | a :: b :: _ => a.1 == b.1
  | _ => false

/-- `ImplicitMinimizerQueue::get_min_pos`: relative position of the front
entry; `none` models the `debug_assert!`/panic on an empty deque. -/
def get_min_pos (q : ImplicitMinimizerQueue) : Option Nat :=
  match q.deq with
  | e :: _ => some (MinimizerQueue.relPos q.width q.pos e.2)
  | [] => none

/-- The `while` loop of `ImplicitMinimizerQueue::get_inner_min_pos`. -/
def innerLoop (width startv hash : Nat) :
    Nat → List (Nat × Nat) → Nat × Option Nat
  | xp, [] => (xp, none)
  | xp, e :: rest =>
    if e.1 = hash then
      let yp := ((startv + e.2) % 65536) % width
      if xp < width - 1 - yp then innerLoop width startv hash yp rest
      else if xp = width - 1 - yp then (xp, some yp)
      else (xp, none)
    else (xp, none)

/-- `ImplicitMinimizerQueue::get_inner_min_pos`. -/
def get_inner_min_pos (q : ImplicitMinimizerQueue) : Option (Nat × Option Nat) :=
  match q.deq with
  | [] => none
  | e :: rest =>
    let startv := q.width - q.pos
    some (innerLoop q.width startv e.1 (((startv + e.2) % 65536) % q.width) rest)

/-- `ImplicitMinimizerQueue::insert_hash`: same four steps as
`MinimizerQueue::insert_with_hash`, on `(hash, slot)` pairs. -/
def insert_hash (q : ImplicitMinimizerQueue) (hash : Nat) : ImplicitMinimizerQueue :=
  let deq1 :=
    match q.deq with
    | e :: rest => if e.2 = q.pos then rest else q.deq
    | [] => q.deq
  let deq2 := deq1.take (truncLen (fun e => e.1) hash deq1 deq1.length)
  { q with deq := deq2 ++ [(hash, q.pos)], pos := (q.pos + 1) % q.width }

/-- `ImplicitMinimizerQueue::clear`. -/
def clear (q : ImplicitMinimizerQueue) : ImplicitMinimizerQueue :=
  { q with deq := [] }

end ImplicitMinimizerQueue

/-- Folding `insert_with_hash` over a list of `(value, hash)` pairs,
starting from an empty queue: the reachable states of the explicit queue. -/
def runQ {T : Type} (w : Nat) (f : T → Nat) (ps : List (T × Nat)) : MinimizerQueue T :=
  ps.foldl (fun q e => q.insert_with_hash e.1 e.2) (MinimizerQueue.with_hasher w f)

/-- Folding `insert` over a list of values. -/
def runQueue {T : Type} (f : T → Nat) (w : Nat) (xs : List T) : MinimizerQueue T :=
  xs.foldl MinimizerQueue.insert (MinimizerQueue.with_hasher w f)

/-- Folding `insert_hash` over a list of hashes: the reachable states of the
implicit queue. -/
def runI (w : Nat) (hs : List Nat) : ImplicitMinimizerQueue :=
  hs.foldl ImplicitMinimizerQueue.insert_hash (ImplicitMinimizerQueue.with_hasher w)

/-! ## The truncation loop

`truncLen` is the literal index-counting loop of the source; the lemmas
below identify `deq.truncate(i)` with dropping the maximal suffix of
entries whose hash is strictly greater than the inserted hash. -/

/-- Remove the maximal trailing run of entries whose hash (under the
accessor `hf`) is strictly greater than `hash`. -/
def truncGt {α : Type} (hf : α → Nat) (hash : Nat) (l : List α) : List α :=
  (l.reverse.dropWhile (fun e => decide (hash < hf e))).reverse

theorem truncLen_le {α : Type} (hf : α → Nat) (hash : Nat) (deq : List α) :
    ∀ i, truncLen hf hash deq i ≤ i := by
  intro i
  induction i with
  | zero => simp [truncLen]
  | succ i ih =>
    rw [truncLen]
    cases deq.get? i with
    | none => simp
    | some e =>
      by_cases h : hash < hf e
      · simpa [h] using ih.trans (Nat.le_succ i)
      · simp [h]

theorem truncLen_append {α : Type} (hf : α → Nat) (hash : Nat) (l : List α) (a : α) :
    ∀ i, i ≤ l.length → truncLen hf hash (l ++ [a]) i = truncLen hf hash l i := by
  intro i
  induction i with
  | zero => intro _; simp [truncLen]
  | succ i ih =>
    intro hi
    rw [truncLen, truncLen, List.get?_append (by omega)]
    cases l.get? i with
    | none => rfl
    | some e =>
      by_cases h : hash < hf e
      · simp [h, ih (by omega)]
      · simp [h]

theorem take_truncLen {α : Type} (hf : α → Nat) (hash : Nat) (l : List α) :
    l.take (truncLen hf hash l l.length) = truncGt hf hash l := by
  induction l using List.reverseRecOn with
  | nil => simp [truncLen, truncGt]
  | append_singleton l a ih =>
    have hlen : (l ++ [a]).length = l.length + 1 := by simp
    rw [hlen, truncLen]
    simp only [List.get?_concat_length]
    by_cases h : hash < hf a
    · rw [if_pos h, truncLen_append hf hash l a l.length (Nat.le_refl _),
        List.take_append_of_le_length (truncLen_le hf hash l l.length),
        truncGt, List.reverse_append]
      simp only [List.reverse_singleton, List.singleton_append, List.dropWhile_cons,
        decide_eq_true_eq, h, if_true]
      exact ih
    · rw [if_neg h, truncGt, List.reverse_append]
      simp only [List.reverse_singleton, List.singleton_append, List.dropWhile_cons,
        decide_eq_true_eq, h, if_false]
      rw [← hlen, List.take_length, List.reverse_cons, List.reverse_reverse]

/-! ## The four steps of `insert`, as the spec words them -/

namespace MinimizerQueue

variable {T : Type}

/-- Step 1: if the deque is non-empty and the front entry's stored slot
equals the current slot counter, pop it. -/
def popExpired (q : MinimizerQueue T) : MinimizerQueue T :=
  match q.deq with
  | e :: rest => if e.2.2 = q.pos then { q with deq := rest } else q
  | [] => q

/-- Step 2: remove every trailing entry whose hash is strictly greater than
the new hash. -/
def dropDominated (hash : Nat) (q : MinimizerQueue T) : MinimizerQueue T :=
  { q with deq := truncGt (fun e => e.2.1) hash q.deq }

/-- Step 3: append the new entry with its hash and the current slot
counter. -/
def appendNew (x : T) (hash : Nat) (q : MinimizerQueue T) : MinimizerQueue T :=
  { q with deq := q.deq ++ [(x, hash, q.pos)] }

/-- Step 4: advance the slot counter by one modulo the width. -/
def advanceSlot (q : MinimizerQueue T) : MinimizerQueue T :=
  { q with pos := (q.pos + 1) % q.width }

/-- `insert_with_hash` is exactly the composition of the four steps. -/
theorem insert_decomp (q : MinimizerQueue T) (x : T) (hash : Nat) :
    q.insert_with_hash x hash =
      advanceSlot (appendNew x hash (dropDominated hash (popExpired q))) := by
  have haux : ∀ l : List (T × Nat × Nat),
      l.take (truncLen (fun e => e.2.1) hash l l.length) = truncGt (fun e => e.2.1) hash l :=
    fun l => take_truncLen _ hash l
  cases hq : q.deq with
  | nil =>
    simp [insert_with_hash, popExpired, dropDominated, appendNew, advanceSlot, hq,
      truncGt]
  | cons e rest =>
    by_cases hs : e.2.2 = q.pos
    · simpa [insert_with_hash, popExpired, dropDominated, appendNew, advanceSlot, hq, hs]
        using congrArg (fun d => d ++ [(x, hash, q.pos)]) (haux rest)
    · simpa [insert_with_hash, popExpired, dropDominated, appendNew, advanceSlot, hq, hs]
        using congrArg (fun d => d ++ [(x, hash, q.pos)]) (haux (e :: rest))

end MinimizerQueue

namespace ImplicitMinimizerQueue

/-- Step 1 for the implicit queue. -/
def popExpired (q : ImplicitMinimizerQueue) : ImplicitMinimizerQueue :=
  match q.deq with
  | e :: rest => if e.2 = q.pos then { q with deq := rest } else q
  | [] => q

/-- Step 2 for the implicit queue. -/
def dropDominated (hash : Nat) (q : ImplicitMinimizerQueue) : ImplicitMinimizerQueue :=
  { q with deq := truncGt (fun e => e.1) hash q.deq }

/-- Step 3 for the implicit queue. -/
def appendNew (hash : Nat) (q : ImplicitMinimizerQueue) : ImplicitMinimizerQueue :=
  { q with deq := q.deq ++ [(hash, q.pos)] }

/-- Step 4 for the implicit queue. -/
def advanceSlot (q : ImplicitMinimizerQueue) : ImplicitMinimizerQueue :=
  { q with pos := (q.pos + 1) % q.width }

/-- `insert_hash` is exactly the composition of the four steps. -/
theorem insert_hash_decomp (q : ImplicitMinimizerQueue) (hash : Nat) :
    q.insert_hash hash =
      advanceSlot (appendNew hash (dropDominated hash (popExpired q))) := by
  have haux : ∀ l : List (Nat × Nat),
      l.take (truncLen (fun e => e.1) hash l l.length) = truncGt (fun e => e.1) hash l :=
    fun l => take_truncLen _ hash l
  cases hq : q.deq with
  | nil =>
    simp [insert_hash, popExpired, dropDominated, appendNew, advanceSlot, hq,
      truncGt]
  | cons e rest =>
    by_cases hs : e.2 = q.pos
    · simpa [insert_hash, popExpired, dropDominated, appendNew, advanceSlot, hq, hs]
        using congrArg (fun d => d ++ [(hash, q.pos)]) (haux rest)
    · simpa [insert_hash, popExpired, dropDominated, appendNew, advanceSlot, hq, hs]
        using congrArg (fun d => d ++ [(hash, q.pos)]) (haux (e :: rest))

end ImplicitMinimizerQueue

/-! ## Specification side: the annotated window and its suffix minima

After `n` insertions with width `w`, the window is the last `min n w`
inserted `(value, hash)` pairs, each annotated with its slot
`index % w`.  The deque of the monotone queue consists exactly of the
window entries that no later window entry beats with a strictly smaller
hash. -/

/-- Annotate each element of `ps` with its slot, counting indices from
`j`. -/
def annotate {T : Type} (w : Nat) : Nat → List (T × Nat) → List (T × Nat × Nat)
  | _, [] => []
  | j, p :: ps => (p.1, p.2, j % w) :: annotate w (j + 1) ps

/-- The annotated window: the last `min n w` inserted pairs with their
slots. -/
def awin {T : Type} (w : Nat) (ps : List (T × Nat)) : List (T × Nat × Nat) :=
  (annotate w 0 ps).drop (ps.length - w)

/-- The entries that survive in the monotone deque: an entry survives
exactly when no later entry has a strictly smaller hash. -/
def suffixMins {T : Type} : List (T × Nat × Nat) → List (T × Nat × Nat)
  | [] => []
  | e :: l =>
    if l.all (fun b => decide (e.2.1 ≤ b.2.1)) then e :: suffixMins l
    else suffixMins l

theorem suffixMins_sublist {T : Type} (l : List (T × Nat × Nat)) :
    (suffixMins l).Sublist l := by
  induction l with
  | nil => simp [suffixMins]
  | cons e l ih =>
    rw [suffixMins]
    by_cases h : l.all (fun b => decide (e.2.1 ≤ b.2.1))
    · rw [if_pos h]; exact ih.cons₂ e
    · rw [if_neg h]; exact ih.cons e

theorem suffixMins_mem {T : Type} {l : List (T × Nat × Nat)} {e : T × Nat × Nat}
    (h : e ∈ suffixMins l) : e ∈ l :=
  List.Sublist.mem h (suffixMins_sublist l)

theorem suffixMins_sorted {T : Type} (l : List (T × Nat × Nat)) :
    (suffixMins l).Pairwise (fun a b => a.2.1 ≤ b.2.1) := by
  induction l with
  | nil => simp [suffixMins]
  | cons e l ih =>
    rw [suffixMins]
    by_cases h : l.all (fun b => decide (e.2.1 ≤ b.2.1))
    · rw [if_pos h]
      refine List.pairwise_cons.mpr ⟨?_, ih⟩
      intro b hb
      simpa using List.all_eq_true.mp h b (suffixMins_mem hb)
    · rw [if_neg h]; exact ih

theorem suffixMins_append {T : Type} (l : List (T × Nat × Nat)) (a : T × Nat × Nat) :
    suffixMins (l ++ [a]) =
      (suffixMins l).filter (fun e => decide (e.2.1 ≤ a.2.1)) ++ [a] := by
  induction l with
  | nil => simp [suffixMins]
  | cons e l ih =>
    have hsplit : (l ++ [a]).all (fun b => decide (e.2.1 ≤ b.2.1)) =
        (l.all (fun b => decide (e.2.1 ≤ b.2.1)) && decide (e.2.1 ≤ a.2.1)) := by
      simp [List.all_append]
    rw [List.cons_append, suffixMins, hsplit]
    by_cases h1 : l.all (fun b => decide (e.2.1 ≤ b.2.1))
    · by_cases h2 : e.2.1 ≤ a.2.1
      · rw [if_pos (by simp [h1, h2]), ih, suffixMins, if_pos h1]
        simp [h2]
      · rw [if_neg (by simp [h2]), ih, suffixMins, if_pos h1]
        simp [h2]
    · rw [if_neg (by simp [h1]), ih, suffixMins, if_neg h1]

theorem filter_dropWhile_sorted {α : Type} (hf : α → Nat) (c : Nat) :
    ∀ r : List α, r.Pairwise (fun a b => hf b ≤ hf a) →
      r.filter (fun e => decide (hf e ≤ c)) =
        r.dropWhile (fun e => decide (c < hf e)) := by
  intro r
  induction r with
  | nil => simp
  | cons a r ih =>
    intro hp
    obtain ⟨ha, hr⟩ := List.pairwise_cons.mp hp
    by_cases h : c < hf a
    · have h2 : ¬ (hf a ≤ c) := by omega
      simp only [List.filter_cons, List.dropWhile_cons, decide_eq_true_eq, if_pos h,
        if_neg h2]
      exact ih hr
    · have h2 : hf a ≤ c := by omega
      simp only [List.filter_cons, List.dropWhile_cons, decide_eq_true_eq, if_pos h2,
        if_neg h]
      congr 1
      rw [List.filter_eq_self]
      intro b hb
      exact decide_eq_true (Nat.le_trans (ha b hb) h2)

theorem filter_eq_truncGt {T : Type} (c : Nat) (l : List (T × Nat × Nat))
    (hs : l.Pairwise (fun a b => a.2.1 ≤ b.2.1)) :
    l.filter (fun e => decide (e.2.1 ≤ c)) = truncGt (fun e => e.2.1) c l := by
  have h1 : l.reverse.filter (fun e => decide (e.2.1 ≤ c)) =
      l.reverse.dropWhile (fun e => decide (c < e.2.1)) :=
    filter_dropWhile_sorted (fun e => e.2.1) c l.reverse (List.pairwise_reverse.mpr hs)
  calc l.filter (fun e => decide (e.2.1 ≤ c))
      = (l.reverse.filter (fun e => decide (e.2.1 ≤ c))).reverse := by
        rw [List.filter_reverse, List.reverse_reverse]
    _ = truncGt (fun e => e.2.1) c l := by rw [h1, truncGt]

theorem annotate_length {T : Type} (w : Nat) :
    ∀ (j : Nat) (ps : List (T × Nat)), (annotate w j ps).length = ps.length := by
  intro j ps
  induction ps generalizing j with
  | nil => simp [annotate]
  | cons p ps ih => simp [annotate, ih]

theorem annotate_append {T : Type} (w : Nat) (p : T × Nat) :
    ∀ (ps : List (T × Nat)) (j : Nat),
      annotate w j (ps ++ [p]) =
        annotate w j ps ++ [(p.1, p.2, (j + ps.length) % w)] := by
  intro ps
  induction ps with
  | nil => intro j; simp [annotate]
  | cons q ps ih =>
    intro j
    have harith : j + 1 + ps.length = j + (ps.length + 1) := by omega
    simp [annotate, ih (j + 1), harith]

theorem annotate_get? {T : Type} (w : Nat) :
    ∀ (ps : List (T × Nat)) (j i : Nat),
      (annotate w j ps).get? i = (ps.get? i).map (fun p => (p.1, p.2, (j + i) % w)) := by
  intro ps
  induction ps with
  | nil => intro j i; simp [annotate]
  | cons p ps ih =>
    intro j i
    cases i with
    | zero => simp [annotate]
    | succ i =>
      have harith : j + 1 + i = j + (i + 1) := by omega
      show (annotate w (j + 1) ps).get? i = _
      rw [ih (j + 1) i, harith]
      rfl

theorem annotate_map_fst {T : Type} (w : Nat) :
    ∀ (j : Nat) (ps : List (T × Nat)),
      (annotate w j ps).map (fun e => e.1) = ps.map (fun p => p.1) := by
  intro j ps
  induction ps generalizing j with
  | nil => simp [annotate]
  | cons p ps ih => simp [annotate, ih]

theorem annotate_hash {T : Type} (w : Nat) (f : T → Nat) :
    ∀ (xs : List T) (j : Nat) (e : T × Nat × Nat),
      e ∈ annotate w j (xs.map fun x => (x, f x)) → e.2.1 = f e.1 := by
  intro xs
  induction xs with
  | nil => intro j e h; simp [annotate] at h
  | cons x xs ih =>
    intro j e h
    simp only [List.map_cons, annotate, List.mem_cons] at h
    cases h with
    | inl h => subst h; rfl
    | inr h => exact ih (j + 1) e h

/-! ## Modular-arithmetic helpers for the slot analysis -/

theorem mod_add_ne (a d w : Nat) (h1 : 0 < d) (h2 : d < w) :
    (a + d) % w ≠ a % w := by
  intro h
  have hmod : a ≡ a + d [MOD w] := h.symm
  have hdvd : w ∣ a + d - a := (Nat.modEq_iff_dvd' (Nat.le_add_right a d)).mp hmod
  have hd : w ∣ d := by simpa using hdvd
  exact absurd (Nat.le_of_dvd h1 hd) (by omega)

theorem sub_mod_eq (n w : Nat) (h : w ≤ n) : (n - w) % w = n % w := by
  conv_rhs => rw [← Nat.sub_add_cancel h]
  rw [Nat.add_mod_right]

/-! ## Slot facts about the annotated window -/

theorem awin_get? {T : Type} (w : Nat) (ps : List (T × Nat)) (k : Nat) :
    (awin w ps).get? k =
      (ps.get? (ps.length - w + k)).map
        (fun p => (p.1, p.2, (ps.length - w + k) % w)) := by
  rw [awin, List.get?_drop, annotate_get?]
  simp

/-- The head of a full window sits at the slot the counter is about to
reuse. -/
theorem awin_head_slot {T : Type} (w : Nat) (ps : List (T × Nat)) (hn : w ≤ ps.length)
    (e : T × Nat × Nat) (hget : (awin w ps).get? 0 = some e) :
    e.2.2 = ps.length % w := by
  rw [awin_get?] at hget
  cases hp : ps.get? (ps.length - w + 0) with
  | none => rw [hp] at hget; simp at hget
  | some p =>
    rw [hp, Option.map_some'] at hget
    injection hget with h
    rw [← h]
    show (ps.length - w + 0) % w = ps.length % w
    rw [Nat.add_zero, sub_mod_eq ps.length w hn]

/-- No entry of the window other than the head sits at the slot the counter
is about to reuse. -/
theorem awin_tail_slot_ne {T : Type} (w : Nat) (hw : 1 ≤ w) (ps : List (T × Nat))
    (k : Nat) (hk : 1 ≤ k) (e : T × Nat × Nat)
    (hget : (awin w ps).get? k = some e) : e.2.2 ≠ ps.length % w := by
  rw [awin_get?] at hget
  cases hp : ps.get? (ps.length - w + k) with
  | none => rw [hp] at hget; simp at hget
  | some p =>
    rw [hp, Option.map_some'] at hget
    have hidx : ps.length - w + k < ps.length := (List.get?_eq_some.mp hp).1
    injection hget with h
    rw [← h]
    show (ps.length - w + k) % w ≠ ps.length % w
    by_cases hnw : w ≤ ps.length
    · have hkw : k < w := by omega
      rw [← sub_mod_eq ps.length w hnw]
      exact mod_add_ne (ps.length - w) k w hk hkw
    · have h0 : ps.length - w = 0 := by omega
      rw [h0] at hidx ⊢
      have hkn : k < ps.length := by omega
      have hklt : k < w := by omega
      have hnlt : ps.length < w := by omega
      simp only [Nat.zero_add]
      rw [Nat.mod_eq_of_lt hklt, Nat.mod_eq_of_lt hnlt]
      omega

/-- Before the window is full, no entry at all sits at the current
counter slot. -/
theorem awin_slot_ne_of_lt {T : Type} (w : Nat) (ps : List (T × Nat))
    (hn : ps.length < w) (e : T × Nat × Nat) (he : e ∈ awin w ps) :
    e.2.2 ≠ ps.length % w := by
  obtain ⟨⟨i, hi⟩, hget⟩ := List.mem_iff_get.mp he
  have hg : (awin w ps).get? i = some e := by
    rw [List.get?_eq_get hi, hget]
  cases i with
  | zero =>
    rw [awin_get?] at hg
    cases hp : ps.get? (ps.length - w + 0) with
    | none => rw [hp] at hg; simp at hg
    | some p =>
      rw [hp, Option.map_some'] at hg
      have hidx : ps.length - w + 0 < ps.length := (List.get?_eq_some.mp hp).1
      injection hg with h
      rw [← h]
      show (ps.length - w + 0) % w ≠ ps.length % w
      have h0 : ps.length - w = 0 := by omega
      rw [h0, Nat.mod_eq_of_lt hn]
      simp only [Nat.add_zero, Nat.zero_mod]
      omega
  | succ i =>
    exact awin_tail_slot_ne w (by omega) ps (i + 1) (by omega) e hg

/-! ## Characterization of the reachable states -/

theorem popExpired_of_lt {T : Type} (q : MinimizerQueue T) (w : Nat) (ps : List (T × Nat))
    (hn : ps.length < w)
    (hdeq : q.deq = suffixMins (awin w ps)) (hpos : q.pos = ps.length % w) :
    q.popExpired = q := by
  obtain ⟨deq, width, hashf, pos⟩ := q
  simp only at hdeq hpos
  subst hdeq hpos
  simp only [MinimizerQueue.popExpired]
  cases hs : suffixMins (awin w ps) with
  | nil => rfl
  | cons e rest =>
    have he : e ∈ suffixMins (awin w ps) := by rw [hs]; exact List.mem_cons_self e rest
    have hne : e.2.2 ≠ ps.length % w :=
      awin_slot_ne_of_lt w ps hn e (suffixMins_mem he)
    simp only
    rw [if_neg hne]

theorem popExpired_of_ge {T : Type} (q : MinimizerQueue T) (w : Nat) (hw : 1 ≤ w)
    (ps : List (T × Nat)) (hn : w ≤ ps.length)
    (o : T × Nat × Nat) (t : List (T × Nat × Nat)) (hwin : awin w ps = o :: t)
    (hdeq : q.deq = suffixMins (awin w ps)) (hpos : q.pos = ps.length % w) :
    q.popExpired = { q with deq := suffixMins t } := by
  have hoslot : o.2.2 = ps.length % w :=
    awin_head_slot w ps hn o (by rw [hwin]; rfl)
  have htail : ∀ e ∈ t, e.2.2 ≠ ps.length % w := by
    intro e he
    obtain ⟨⟨i, hi⟩, hget⟩ := List.mem_iff_get.mp he
    refine awin_tail_slot_ne w hw ps (i + 1) (by omega) e ?_
    rw [hwin]
    show t.get? i = some e
    rw [List.get?_eq_get hi, hget]
  obtain ⟨deq, width, hashf, pos⟩ := q
  simp only at hdeq hpos
  subst hdeq hpos
  rw [hwin]
  simp only [MinimizerQueue.popExpired]
  by_cases hall : t.all (fun b => decide (o.2.1 ≤ b.2.1)) = true
  · rw [suffixMins, if_pos hall]
    simp only
    rw [if_pos hoslot]
  · rw [suffixMins, if_neg hall]
    cases hst : suffixMins t with
    | nil => rfl
    | cons f r =>
      have hf : f ∈ suffixMins t := by rw [hst]; exact List.mem_cons_self f r
      have hne : f.2.2 ≠ ps.length % w := htail f (suffixMins_mem hf)
      simp only
      rw [if_neg hne]

theorem step_components {T : Type} (q1 : MinimizerQueue T) (x : T) (c : Nat)
    (A : List (T × Nat × Nat)) (hdeq : q1.deq = suffixMins A) :
    (MinimizerQueue.advanceSlot
      (MinimizerQueue.appendNew x c (MinimizerQueue.dropDominated c q1))).deq
        = suffixMins (A ++ [(x, c, q1.pos)]) ∧
    (MinimizerQueue.advanceSlot
      (MinimizerQueue.appendNew x c (MinimizerQueue.dropDominated c q1))).pos
        = (q1.pos + 1) % q1.width ∧
    (MinimizerQueue.advanceSlot
      (MinimizerQueue.appendNew x c (MinimizerQueue.dropDominated c q1))).width
        = q1.width ∧
    (MinimizerQueue.advanceSlot
      (MinimizerQueue.appendNew x c (MinimizerQueue.dropDominated c q1))).hashf
        = q1.hashf := by
  refine ⟨?_, rfl, rfl, rfl⟩
  show truncGt (fun e => e.2.1) c q1.deq ++ [(x, c, q1.pos)] = _
  rw [hdeq, suffixMins_append,
    ← filter_eq_truncGt c (suffixMins A) (suffixMins_sorted A)]

/-- After inserting the pairs `ps` into an empty queue of width `w`, the
deque consists exactly of the suffix minima of the annotated window, the
slot counter is the number of insertions modulo `w`, and width and hasher
are unchanged. -/
theorem runQ_char {T : Type} (w : Nat) (hw : 1 ≤ w) (f : T → Nat) (ps : List (T × Nat)) :
    (runQ w f ps).deq = suffixMins (awin w ps) ∧
    (runQ w f ps).pos = ps.length % w ∧
    (runQ w f ps).width = w ∧
    (runQ w f ps).hashf = f := by
  induction ps using List.reverseRecOn with
  | nil =>
    refine ⟨?_, ?_, rfl, rfl⟩ <;>
      simp [runQ, MinimizerQueue.with_hasher, awin, annotate, suffixMins]
  | append_singleton ps p ih =>
    obtain ⟨hdeq, hpos, hwid, hhf⟩ := ih
    have hstep : runQ w f (ps ++ [p]) = (runQ w f ps).insert_with_hash p.1 p.2 := by
      simp [runQ, List.foldl_append]
    have hann : annotate w 0 (ps ++ [p]) =
        annotate w 0 ps ++ [(p.1, p.2, ps.length % w)] := by
      simpa using annotate_append w p ps 0
    have hlen' : (ps ++ [p]).length = ps.length + 1 := by simp
    by_cases hc : ps.length < w
    · -- window not yet full: nothing expires
      have hwin' : awin w (ps ++ [p]) = awin w ps ++ [(p.1, p.2, ps.length % w)] := by
        rw [awin, hann, hlen']
        have h1 : ps.length + 1 - w = 0 := by omega
        have h2 : ps.length - w = 0 := by omega
        rw [h1, List.drop_zero, awin, h2, List.drop_zero]
      have hpop : (runQ w f ps).popExpired = runQ w f ps :=
        popExpired_of_lt (runQ w f ps) w ps hc hdeq hpos
      rw [hstep, MinimizerQueue.insert_decomp, hpop]
      obtain ⟨c1, c2, c3, c4⟩ := step_components (runQ w f ps) p.1 p.2 (awin w ps) hdeq
      refine ⟨?_, ?_, ?_, ?_⟩
      · rw [c1, hpos, hwin']
      · rw [c2, hpos, hwid, hlen', Nat.mod_add_mod]
      · rw [c3, hwid]
      · rw [c4, hhf]
    · -- sliding regime: the head of the window expires
      have hge : w ≤ ps.length := by omega
      have hlenwin : (awin w ps).length = w := by
        rw [awin, List.length_drop, annotate_length]; omega
      obtain ⟨o, t, hwin⟩ : ∃ o t, awin w ps = o :: t := by
        cases hcase : awin w ps with
        | nil => rw [hcase] at hlenwin; simp at hlenwin; omega
        | cons o t => exact ⟨o, t, rfl⟩
      have hwin' : awin w (ps ++ [p]) = t ++ [(p.1, p.2, ps.length % w)] := by
        rw [awin, hann, hlen']
        have h1 : ps.length + 1 - w = (ps.length - w) + 1 := by omega
        rw [h1, List.drop_append_of_le_length (by rw [annotate_length]; omega)]
        congr 1
        rw [← List.drop_drop, ← awin, hwin]
        rfl
      have hpop := popExpired_of_ge (runQ w f ps) w hw ps hge o t hwin hdeq hpos
      rw [hstep, MinimizerQueue.insert_decomp, hpop]
      obtain ⟨c1, c2, c3, c4⟩ :=
        step_components { runQ w f ps with deq := suffixMins t } p.1 p.2 t rfl
      refine ⟨?_, ?_, ?_, ?_⟩
      · rw [c1]
        show _ = suffixMins (awin w (ps ++ [p]))
        rw [hwin']
        show suffixMins (t ++ [(p.1, p.2, (runQ w f ps).pos)]) = _
        rw [hpos]
      · rw [c2]
        show ((runQ w f ps).pos + 1) % (runQ w f ps).width = _
        rw [hpos, hwid, hlen', Nat.mod_add_mod]
      · rw [c3]; exact hwid
      · rw [c4]; exact hhf

/-! ## The earliest entry with minimal hash -/

/-- The first entry of the list whose hash is minimal (strict comparison
with the minimum of the tail keeps the earlier entry on ties). -/
def earliestMin {T : Type} : List (T × Nat × Nat) → Option (T × Nat × Nat)
  | [] => none
  | e :: l =>
    match earliestMin l with
    | none => some e
    | some m => if m.2.1 < e.2.1 then some m else some e

theorem earliestMin_isSome {T : Type} (l : List (T × Nat × Nat)) (h : l ≠ []) :
    ∃ m, earliestMin l = some m := by
  cases l with
  | nil => exact absurd rfl h
  | cons e l =>
    rw [earliestMin]
    cases earliestMin l with
    | none => exact ⟨e, rfl⟩
    | some m =>
      by_cases hlt : m.2.1 < e.2.1
      · exact ⟨m, by simp [hlt]⟩
      · exact ⟨e, by simp [hlt]⟩

theorem earliestMin_mem {T : Type} :
    ∀ (l : List (T × Nat × Nat)) (m : T × Nat × Nat),
      earliestMin l = some m → m ∈ l := by
  intro l
  induction l with
  | nil => intro m h; simp [earliestMin] at h
  | cons e l ih =>
    intro m h
    rw [earliestMin] at h
    cases hl : earliestMin l with
    | none =>
      rw [hl] at h
      simp only at h
      injection h with h
      rw [← h]
      exact List.mem_cons_self e l
    | some m' =>
      rw [hl] at h
      simp only at h
      by_cases hlt : m'.2.1 < e.2.1
      · rw [if_pos hlt] at h
        injection h with h
        rw [← h]
        exact List.mem_cons_of_mem e (ih m' hl)
      · rw [if_neg hlt] at h
        injection h with h
        rw [← h]
        exact List.mem_cons_self e l

theorem earliestMin_min {T : Type} :
    ∀ (l : List (T × Nat × Nat)) (m : T × Nat × Nat),
      earliestMin l = some m → ∀ b ∈ l, m.2.1 ≤ b.2.1 := by
  intro l
  induction l with
  | nil => intro m h; simp [earliestMin] at h
  | cons e l ih =>
    intro m h b hb
    rw [earliestMin] at h
    cases hl : earliestMin l with
    | none =>
      have hnil : l = [] := by
        cases l with
        | nil => rfl
        | cons a l' =>
          obtain ⟨m', hm'⟩ := earliestMin_isSome (a :: l') (by simp)
          rw [hm'] at hl
          exact absurd hl (by simp)
      rw [hl] at h
      simp only at h
      injection h with h
      subst hnil
      rcases List.mem_singleton.mp hb with rfl
      rw [← h]
    | some m' =>
      rw [hl] at h
      simp only at h
      have hmin' := ih m' hl
      by_cases hlt : m'.2.1 < e.2.1
      · rw [if_pos hlt] at h
        injection h with h
        subst h
        rcases List.mem_cons.mp hb with rfl | hbl
        · exact Nat.le_of_lt hlt
        · exact hmin' b hbl
      · rw [if_neg hlt] at h
        injection h with h
        subst h
        rcases List.mem_cons.mp hb with rfl | hbl
        · exact Nat.le_refl _
        · exact Nat.le_trans (Nat.le_of_not_lt hlt) (hmin' b hbl)

theorem earliestMin_decomp {T : Type} :
    ∀ (l : List (T × Nat × Nat)) (m : T × Nat × Nat),
      earliestMin l = some m →
        ∃ l1 l2, l = l1 ++ m :: l2 ∧
          (∀ b ∈ l1, m.2.1 < b.2.1) ∧ (∀ b ∈ l2, m.2.1 ≤ b.2.1) := by
  intro l
  induction l with
  | nil => intro m h; simp [earliestMin] at h
  | cons e l ih =>
    intro m h
    rw [earliestMin] at h
    cases hl : earliestMin l with
    | none =>
      have hnil : l = [] := by
        cases l with
        | nil => rfl
        | cons a l' =>
          obtain ⟨m', hm'⟩ := earliestMin_isSome (a :: l') (by simp)
          rw [hm'] at hl
          exact absurd hl (by simp)
      rw [hl] at h
      simp only at h
      injection h with h
      subst hnil h
      exact ⟨[], [], rfl, by simp, by simp⟩
    | some m' =>
      rw [hl] at h
      simp only at h
      by_cases hlt : m'.2.1 < e.2.1
      · rw [if_pos hlt] at h
        injection h with h
        obtain ⟨l1, l2, hsplit, hbef, haft⟩ := ih m' hl
        subst h
        refine ⟨e :: l1, l2, by rw [hsplit]; rfl, ?_, haft⟩
        intro b hb
        rcases List.mem_cons.mp hb with rfl | hbl
        · exact hlt
        · exact hbef b hbl
      · rw [if_neg hlt] at h
        injection h with h
        subst h
        refine ⟨[], l, rfl, by simp, ?_⟩
        intro b hb
        exact Nat.le_trans (Nat.le_of_not_lt hlt) (earliestMin_min l m' hl b hb)

/-- The front of the monotone deque is the earliest entry of minimal
hash. -/
theorem suffixMins_head {T : Type} (l : List (T × Nat × Nat)) :
    (suffixMins l).head? = earliestMin l := by
  induction l with
  | nil => simp [suffixMins, earliestMin]
  | cons e l ih =>
    by_cases hall : l.all (fun b => decide (e.2.1 ≤ b.2.1)) = true
    · rw [suffixMins, if_pos hall, earliestMin]
      cases hl : earliestMin l with
      | none => rfl
      | some m' =>
        have hm'l : m' ∈ l := earliestMin_mem l m' hl
        have hle : e.2.1 ≤ m'.2.1 := by
          simpa using List.all_eq_true.mp hall m' hm'l
        simp only
        rw [if_neg (Nat.not_lt.mpr hle)]
        rfl
    · rw [suffixMins, if_neg hall, earliestMin]
      have hex : ∃ b ∈ l, b.2.1 < e.2.1 := by
        by_contra hcon
        push_neg at hcon
        exact hall (List.all_eq_true.mpr fun b hb => decide_eq_true (hcon b hb))
      obtain ⟨b, hbl, hblt⟩ := hex
      have hlne : l ≠ [] := by
        intro hcon
        rw [hcon] at hbl
        simp at hbl
      obtain ⟨m', hm'⟩ := earliestMin_isSome l hlne
      rw [hm']
      simp only
      have hlt : m'.2.1 < e.2.1 :=
        Nat.lt_of_le_of_lt (earliestMin_min l m' hm' b hbl) hblt
      rw [if_pos hlt, ih, hm']

/-! ## Bridging `runQueue` (values) to `runQ` (pairs) -/

/-- Pair each value with its hash. -/
def mkPairs {T : Type} (f : T → Nat) (xs : List T) : List (T × Nat) :=
  xs.map (fun x => (x, f x))

/-- The last `min` of `length` and `w` elements: the logical window. -/
def window {T : Type} (w : Nat) (xs : List T) : List T :=
  xs.drop (xs.length - w)

theorem foldl_insert_hashf {T : Type} (f : T → Nat) (xs : List T) :
    ∀ q : MinimizerQueue T, q.hashf = f →
      xs.foldl MinimizerQueue.insert q =
        xs.foldl (fun q x => q.insert_with_hash x (f x)) q := by
  induction xs with
  | nil => intro q _; rfl
  | cons x xs ih =>
    intro q h
    simp only [List.foldl_cons]
    rw [show q.insert x = q.insert_with_hash x (f x) by
      rw [MinimizerQueue.insert, h]]
    exact ih _ (by rw [show (q.insert_with_hash x (f x)).hashf = q.hashf from rfl, h])

theorem runQueue_eq_runQ {T : Type} (f : T → Nat) (w : Nat) (xs : List T) :
    runQueue f w xs = runQ w f (mkPairs f xs) := by
  rw [runQueue, runQ, mkPairs, List.foldl_map]
  exact foldl_insert_hashf f xs _ rfl

theorem get_min_eq_head {T : Type} (q : MinimizerQueue T) :
    q.get_min = q.deq.head?.map (fun e => e.1) := by
  rw [MinimizerQueue.get_min]
  cases q.deq <;> rfl

theorem mkPairs_length {T : Type} (f : T → Nat) (xs : List T) :
    (mkPairs f xs).length = xs.length := by
  simp [mkPairs]

theorem mkPairs_map_fst {T : Type} (f : T → Nat) (xs : List T) :
    (mkPairs f xs).map (fun p => p.1) = xs := by
  induction xs with
  | nil => rfl
  | cons x xs ih =>
    simp only [mkPairs, List.map_cons] at ih ⊢
    rw [ih]

theorem window_eq_awin_map {T : Type} (f : T → Nat) (w : Nat) (xs : List T) :
    window w xs = (awin w (mkPairs f xs)).map (fun e => e.1) := by
  rw [window, awin, List.map_drop, annotate_map_fst, mkPairs_length, mkPairs_map_fst]

theorem awin_hash_eq {T : Type} (f : T → Nat) (w : Nat) (xs : List T) :
    ∀ e ∈ awin w (mkPairs f xs), e.2.1 = f e.1 := by
  intro e he
  have hmem : e ∈ annotate w 0 (mkPairs f xs) := List.mem_of_mem_drop he
  rw [mkPairs] at hmem
  exact annotate_hash w f xs 0 e hmem

/-- After at least one insertion the annotated window is non-empty. -/
theorem awin_ne_nil {T : Type} (w : Nat) (hw : 1 ≤ w) (ps : List (T × Nat))
    (hne : ps ≠ []) : awin w ps ≠ [] := by
  intro hcon
  have hl := congrArg List.length hcon
  rw [awin, List.length_drop, annotate_length] at hl
  simp only [List.length_nil] at hl
  have hx : 1 ≤ ps.length := List.length_pos.mpr hne
  omega

/-! ## Simulation: the implicit queue mirrors the explicit queue -/

/-- Forget the value of an explicit entry. -/
def projE {T : Type} (e : T × Nat × Nat) : Nat × Nat := (e.2.1, e.2.2)

/-- The implicit state corresponding to an explicit state. -/
def impOf {T : Type} (q : MinimizerQueue T) : ImplicitMinimizerQueue :=
  { deq := q.deq.map projE, width := q.width, pos := q.pos }

theorem truncLen_map {T : Type} (hash : Nat) (l : List (T × Nat × Nat)) :
    ∀ i, truncLen (fun e => e.1) hash (l.map projE) i
        = truncLen (fun e => e.2.1) hash l i := by
  intro i
  induction i with
  | zero => simp [truncLen]
  | succ i ih =>
    rw [truncLen, truncLen, List.get?_map]
    cases l.get? i with
    | none => simp
    | some e =>
      by_cases h : hash < e.2.1 <;> simp [projE, h, ih]

theorem impOf_popExpired {T : Type} (q : MinimizerQueue T) :
    impOf q.popExpired = (impOf q).popExpired := by
  cases hd : q.deq with
  | nil =>
    simp [impOf, MinimizerQueue.popExpired, ImplicitMinimizerQueue.popExpired, hd]
  | cons e rest =>
    by_cases hs : e.2.2 = q.pos <;>
      simp [impOf, MinimizerQueue.popExpired, ImplicitMinimizerQueue.popExpired, hd, hs,
        projE]

theorem truncGt_map {T : Type} (hash : Nat) (l : List (T × Nat × Nat)) :
    truncGt (fun e => e.1) hash (l.map projE) =
      (truncGt (fun e => e.2.1) hash l).map projE := by
  rw [truncGt, truncGt, List.reverse_map, List.dropWhile_map]
  rw [show ((fun e : Nat × Nat => decide (hash < e.1)) ∘ projE)
      = (fun e : T × Nat × Nat => decide (hash < e.2.1)) from rfl]
  rw [List.reverse_map]

theorem impOf_dropDominated {T : Type} (hash : Nat) (q : MinimizerQueue T) :
    impOf (MinimizerQueue.dropDominated hash q) =
      ImplicitMinimizerQueue.dropDominated hash (impOf q) := by
  simp only [impOf, MinimizerQueue.dropDominated, ImplicitMinimizerQueue.dropDominated,
    truncGt_map]

theorem impOf_appendNew {T : Type} (x : T) (hash : Nat) (q : MinimizerQueue T) :
    impOf (MinimizerQueue.appendNew x hash q) =
      ImplicitMinimizerQueue.appendNew hash (impOf q) := by
  simp [impOf, MinimizerQueue.appendNew, ImplicitMinimizerQueue.appendNew, projE]

theorem impOf_insert {T : Type} (q : MinimizerQueue T) (x : T) (hash : Nat) :
    impOf (q.insert_with_hash x hash) = (impOf q).insert_hash hash := by
  rw [MinimizerQueue.insert_decomp, ImplicitMinimizerQueue.insert_hash_decomp]
  rw [show impOf (MinimizerQueue.advanceSlot
        (MinimizerQueue.appendNew x hash (MinimizerQueue.dropDominated hash q.popExpired)))
      = ImplicitMinimizerQueue.advanceSlot (impOf
        (MinimizerQueue.appendNew x hash (MinimizerQueue.dropDominated hash q.popExpired)))
    from rfl]
  rw [impOf_appendNew, impOf_dropDominated, impOf_popExpired]

theorem impOf_is_empty {T : Type} (q : MinimizerQueue T) :
    (impOf q).is_empty = q.is_empty := by
  cases hd : q.deq <;>
    simp [impOf, MinimizerQueue.is_empty, ImplicitMinimizerQueue.is_empty, hd]

theorem impOf_get_min_pos {T : Type} (q : MinimizerQueue T) :
    (impOf q).get_min_pos = q.get_min_pos.map (fun r => r.2) := by
  cases hd : q.deq <;>
    simp [impOf, MinimizerQueue.get_min_pos, ImplicitMinimizerQueue.get_min_pos, hd, projE]

theorem impOf_multiple_mins {T : Type} (q : MinimizerQueue T) :
    (impOf q).multiple_mins = q.multiple_mins := by
  cases hd : q.deq with
  | nil =>
    simp [impOf, MinimizerQueue.multiple_mins, ImplicitMinimizerQueue.multiple_mins, hd]
  | cons a rest =>
    cases rest <;>
      simp [impOf, MinimizerQueue.multiple_mins, ImplicitMinimizerQueue.multiple_mins, hd,
        projE]

theorem innerLoop_proj {T : Type} (w s h : Nat) :
    ∀ (rest : List (T × Nat × Nat)) (x : T) (xp : Nat),
      ImplicitMinimizerQueue.innerLoop w s h xp (rest.map projE) =
        ((MinimizerQueue.innerLoop w s h x xp rest).2.1,
         (MinimizerQueue.innerLoop w s h x xp rest).2.2.map (fun c => c.2)) := by
  intro rest
  induction rest with
  | nil => intro x xp; rfl
  | cons e rest ih =>
    intro x xp
    by_cases h1 : e.2.1 = h
    · by_cases h2 : xp < w - 1 - ((s + e.2.2) % 65536) % w
      · simp only [MinimizerQueue.innerLoop, ImplicitMinimizerQueue.innerLoop,
          List.map_cons, projE, if_pos h1, if_pos h2]
        exact ih e.1 _
      · by_cases h3 : xp = w - 1 - ((s + e.2.2) % 65536) % w <;>
          simp [MinimizerQueue.innerLoop, ImplicitMinimizerQueue.innerLoop, projE, h1,
            h2, h3]
    · simp [MinimizerQueue.innerLoop, ImplicitMinimizerQueue.innerLoop, projE, h1]

theorem impOf_get_inner_min_pos {T : Type} (q : MinimizerQueue T) :
    (impOf q).get_inner_min_pos =
      q.get_inner_min_pos.map (fun r => (r.2.1, r.2.2.map (fun c => c.2))) := by
  cases hd : q.deq with
  | nil =>
    simp [impOf, MinimizerQueue.get_inner_min_pos, ImplicitMinimizerQueue.get_inner_min_pos,
      hd]
  | cons e rest =>
    simp only [impOf, MinimizerQueue.get_inner_min_pos,
      ImplicitMinimizerQueue.get_inner_min_pos, hd, List.map_cons, Option.map_some']
    exact congrArg some (innerLoop_proj q.width (q.width - q.pos) e.2.1 rest e.1 _)

theorem foldl_impOf {T : Type} (ps : List (T × Nat)) :
    ∀ q : MinimizerQueue T,
      (ps.map (fun p => p.2)).foldl ImplicitMinimizerQueue.insert_hash (impOf q) =
        impOf (ps.foldl (fun q e => q.insert_with_hash e.1 e.2) q) := by
  induction ps with
  | nil => intro q; rfl
  | cons p ps ih =>
    intro q
    simp only [List.map_cons, List.foldl_cons]
    rw [← impOf_insert]
    exact ih _

theorem runI_eq_impOf {T : Type} (w : Nat) (f : T → Nat) (ps : List (T × Nat)) :
    runI w (ps.map (fun p => p.2)) = impOf (runQ w f ps) := by
  rw [runI, runQ]
  have hinit : ImplicitMinimizerQueue.with_hasher w =
      impOf (MinimizerQueue.with_hasher w f) := rfl
  rw [hinit]
  exact foldl_impOf ps _

/-! ## A run with strictly decreasing hashes (used to exhibit the
`u16` overflow in the relative-position computation) -/

/-- Insert `k` values with strictly decreasing hashes `H, H-1, …`. -/
def decRun (w H : Nat) : Nat → MinimizerQueue Nat
  | 0 => MinimizerQueue.with_hasher w (fun _ => 0)
  | k + 1 => (decRun w H k).insert_with_hash k (H - k)

/-- Closed form: after `k ≥ 1` strictly decreasing inserts the deque is the
singleton holding the last insert. -/
theorem decRun_closed (w H : Nat) (hw : 2 ≤ w) :
    ∀ k, 1 ≤ k → k ≤ H →
      decRun w H k =
        ⟨[(k - 1, H - (k - 1), (k - 1) % w)], w, fun _ => 0, k % w⟩ := by
  intro k
  induction k with
  | zero => intro h _; omega
  | succ k ih =>
    intro _ hk
    by_cases hk0 : k = 0
    · subst hk0
      show (MinimizerQueue.with_hasher w (fun _ => 0)).insert_with_hash 0 (H - 0) = _
      simp [MinimizerQueue.insert_with_hash, MinimizerQueue.with_hasher, truncLen]
    · have hk1 : 1 ≤ k := by omega
      have hstep : decRun w H (k + 1) = (decRun w H k).insert_with_hash k (H - k) := rfl
      rw [hstep, ih hk1 (by omega)]
      have hpw : (k - 1) % w < w := Nat.mod_lt _ (by omega)
      have hne : (k - 1) % w ≠ k % w := by
        intro hcon
        have h1 : k % w = ((k - 1) % w + 1) % w := by
          conv_lhs => rw [show k = (k - 1) + 1 by omega]
          rw [Nat.mod_add_mod]
        by_cases hlt : (k - 1) % w + 1 < w
        · rw [Nat.mod_eq_of_lt hlt] at h1; omega
        · have heq : (k - 1) % w + 1 = w := by omega
          rw [heq, Nat.mod_self] at h1
          omega
      have hhash : H - k < H - (k - 1) + 1 ∧ ¬ (H - (k - 1) ≤ H - k) := by omega
      have hhash2 : H - k < H - (k - 1) := by omega
      simp [MinimizerQueue.insert_with_hash, hne, truncLen, hhash2, Nat.mod_add_mod]

/-! ## Remaining small helpers -/

theorem popExpired_pos {T : Type} (q : MinimizerQueue T) :
    q.popExpired.pos = q.pos := by
  obtain ⟨deq, width, hashf, pos⟩ := q
  cases deq with
  | nil => rfl
  | cons e rest =>
    simp only [MinimizerQueue.popExpired]
    by_cases hs : e.2.2 = pos <;> simp [hs]

theorem popExpired_width {T : Type} (q : MinimizerQueue T) :
    q.popExpired.width = q.width := by
  obtain ⟨deq, width, hashf, pos⟩ := q
  cases deq with
  | nil => rfl
  | cons e rest =>
    simp only [MinimizerQueue.popExpired]
    by_cases hs : e.2.2 = pos <;> simp [hs]

theorem insert_with_hash_pos {T : Type} (q : MinimizerQueue T) (x : T) (hash : Nat) :
    (q.insert_with_hash x hash).pos = (q.pos + 1) % q.width := by
  rw [MinimizerQueue.insert_decomp]
  show (q.popExpired.pos + 1) % q.popExpired.width = _
  rw [popExpired_pos, popExpired_width]

/-- The pop of step 1 fires: the deque is non-empty and the front entry's
stored slot equals the current slot counter. -/
def popOccurs {T : Type} (q : MinimizerQueue T) : Prop :=
  ∃ e rest, q.deq = e :: rest ∧ e.2.2 = q.pos

/-- One observation of the queue: every query the interface offers. -/
def obsOf {T : Type} (q : MinimizerQueue T) :
    Option T × Option (T × Nat) × Option (T × Nat × Option (T × Nat)) × Bool :=
  (q.get_min, q.get_min_pos, q.get_inner_min_pos, q.multiple_mins)

/-- The per-step observations of a run: after each insertion, record every
query result. -/
def obsTrace {T : Type} :
    MinimizerQueue T → List T →
      List (Option T × Option (T × Nat) × Option (T × Nat × Option (T × Nat)) × Bool)
  | _, [] => []
  | q, x :: xs => obsOf (q.insert x) :: obsTrace (q.insert x) xs

/-! ## The claims -/

/-- C1: for every width `W ≥ 1`, hash function and input sequence, after the
`i`-th insertion `get_min` returns the element with the minimum hash among
the last `min i W` inserted elements, ties broken toward the
earliest-inserted element (the elements strictly before the returned
occurrence in the window all have strictly larger hash, those after have
larger-or-equal hash); in particular the query succeeds before the window
is filled. -/
theorem spec_C1 {T : Type} (f : T → Nat) (w : Nat) (hw : 1 ≤ w) (xs : List T)
    (hne : xs ≠ []) :
    ∃ m l1 l2, (runQueue f w xs).get_min = some m ∧
      window w xs = l1 ++ m :: l2 ∧
      (∀ y ∈ l1, f m < f y) ∧ (∀ y ∈ l2, f m ≤ f y) := by
  have hchar := runQ_char w hw f (mkPairs f xs)
  have hne' : mkPairs f xs ≠ [] := by
    intro hcon
    have hl := congrArg List.length hcon
    rw [mkPairs_length] at hl
    simp only [List.length_nil] at hl
    exact hne (List.length_eq_zero.mp hl)
  have hwne := awin_ne_nil w hw (mkPairs f xs) hne'
  obtain ⟨m0, hm0⟩ := earliestMin_isSome _ hwne
  obtain ⟨l1, l2, hsplit, hbef, haft⟩ := earliestMin_decomp _ _ hm0
  have hm0win : m0 ∈ awin w (mkPairs f xs) := earliestMin_mem _ _ hm0
  have hhash := awin_hash_eq f w xs
  refine ⟨m0.1, l1.map (fun e => e.1), l2.map (fun e => e.1), ?_, ?_, ?_, ?_⟩
  · rw [runQueue_eq_runQ, get_min_eq_head, hchar.1, suffixMins_head, hm0]
    rfl
  · rw [window_eq_awin_map f w xs, hsplit]
    simp
  · intro y hy
    obtain ⟨b, hb, rfl⟩ := List.mem_map.mp hy
    have hbw : b ∈ awin w (mkPairs f xs) := by
      rw [hsplit]; exact List.mem_append.mpr (Or.inl hb)
    have hlt := hbef b hb
    rwa [hhash b hbw, hhash m0 hm0win] at hlt
  · intro y hy
    obtain ⟨b, hb, rfl⟩ := List.mem_map.mp hy
    have hbw : b ∈ awin w (mkPairs f xs) := by
      rw [hsplit]; exact List.mem_append.mpr (Or.inr (List.mem_cons_of_mem _ hb))
    have hle := haft b hb
    rwa [hhash b hbw, hhash m0 hm0win] at hle

/-- Witness for C1 at width 3, identity hash, inputs `[1, 2, 3, 0]`. -/
theorem spec_C1_wit :
    ∃ m l1 l2, (runQueue (fun x => x) 3 [1, 2, 3, 0]).get_min = some m ∧
      window 3 [1, 2, 3, 0] = l1 ++ m :: l2 ∧
      (∀ y ∈ l1, m < y) ∧ (∀ y ∈ l2, m ≤ y) :=
  spec_C1 (fun x => x) 3 (by decide) [1, 2, 3, 0] (by decide)

/-- C2: after every sequence of insertions at width `W ≥ 1`, the deque's
hashes are non-decreasing from front to back, the deque holds at most `W`
entries, and the deque is a subsequence of the window in insertion order
(so equal-hash entries keep their original relative order); likewise for
the implicit queue fed the same hashes. -/
theorem spec_C2 {T : Type} (f : T → Nat) (w : Nat) (hw : 1 ≤ w)
    (ps : List (T × Nat)) :
    ((runQ w f ps).deq.Pairwise (fun a b => a.2.1 ≤ b.2.1) ∧
      (runQ w f ps).deq.length ≤ w ∧
      (runQ w f ps).deq.Sublist (awin w ps)) ∧
    ((runI w (ps.map (fun p => p.2))).deq.Pairwise (fun a b => a.1 ≤ b.1) ∧
      (runI w (ps.map (fun p => p.2))).deq.length ≤ w) := by
  have hchar := runQ_char w hw f ps
  have hs := hchar.1
  have hlen : (runQ w f ps).deq.length ≤ w := by
    rw [hs]
    have h1 := (suffixMins_sublist (awin w ps)).length_le
    have h2 : (awin w ps).length ≤ w := by
      rw [awin, List.length_drop, annotate_length]; omega
    omega
  refine ⟨⟨?_, hlen, ?_⟩, ?_, ?_⟩
  · rw [hs]; exact suffixMins_sorted _
  · rw [hs]; exact suffixMins_sublist _
  · rw [runI_eq_impOf w f ps]
    show ((runQ w f ps).deq.map projE).Pairwise (fun a b => a.1 ≤ b.1)
    refine List.Pairwise.map projE (fun a b hab => hab) ?_
    rw [hs]; exact suffixMins_sorted _
  · rw [runI_eq_impOf w f ps]
    show ((runQ w f ps).deq.map projE).length ≤ w
    rw [List.length_map]; exact hlen

/-- Witness for C2 at width 2 with four explicit insertions. -/
theorem spec_C2_wit :
    (runQ 2 (fun x => x) [((5 : Nat), 7), (3, 4), (6, 4), (2, 9)]).deq.length ≤ 2 :=
  ((spec_C2 (fun x => x) 2 (by decide) [(5, 7), (3, 4), (6, 4), (2, 9)]).1).2.1

/-- C3 (code bug): at width 32769, after 32769 insertions with strictly
decreasing hashes, the deque is the singleton `(32768, 1, 32768)` and the
slot counter is 0, so the claimed relative position
`(W - slot_counter + front.slot) mod W` is 32768 — but `get_min_pos`
returns position 1, because the `u16` sum `width - pos + slot = 65537`
wraps modulo `2^16` before the reduction modulo the width (in a debug build
the same input panics with an arithmetic-overflow error). -/
theorem spec_C3_bug :
    (decRun 32769 32769 32769).get_min_pos = some (32768, 1) ∧
    (decRun 32769 32769 32769).deq = [(32768, 1, 32768)] ∧
    (decRun 32769 32769 32769).pos = 0 ∧
    (32769 - 0 + 32768) % 32769 = 32768 ∧
    (1 : Nat) ≠ 32768 := by
  rw [decRun_closed 32769 32769 (by decide) 32769 (by decide) (by decide)]
  refine ⟨?_, ?_, ?_, ?_, ?_⟩ <;> decide

/-- C4: `insert_with_hash` (and `insert_hash`) is exactly the in-order
composition of the four steps — pop the expired front, drop the dominated
back entries (strictly greater hash only: entries whose hash equals the
new hash are kept), append the new entry with the current slot counter,
advance the counter modulo the width — and on a reachable state the pop of
step 1 can only fire once at least `W` insertions have happened. -/
theorem spec_C4 {T : Type} (q : MinimizerQueue T) (x : T) (hash : Nat)
    (w : Nat) (hw : 1 ≤ w) (f : T → Nat) (ps : List (T × Nat))
    (p : ImplicitMinimizerQueue) (hash2 : Nat) :
    (q.insert_with_hash x hash =
      MinimizerQueue.advanceSlot (MinimizerQueue.appendNew x hash
        (MinimizerQueue.dropDominated hash q.popExpired))) ∧
    (p.insert_hash hash2 =
      ImplicitMinimizerQueue.advanceSlot (ImplicitMinimizerQueue.appendNew hash2
        (ImplicitMinimizerQueue.dropDominated hash2 p.popExpired))) ∧
    (popOccurs (runQ w f ps) → w ≤ ps.length) ∧
    (∀ e ∈ q.popExpired.deq, e.2.1 ≤ hash →
      e ∈ (MinimizerQueue.dropDominated hash q.popExpired).deq) := by
  refine ⟨MinimizerQueue.insert_decomp q x hash,
    ImplicitMinimizerQueue.insert_hash_decomp p hash2, ?_, ?_⟩
  · rintro ⟨e, rest, hd, hslot⟩
    by_contra hcon
    have hlt : ps.length < w := by omega
    have hchar := runQ_char w hw f ps
    have he : e ∈ (runQ w f ps).deq := by rw [hd]; exact List.mem_cons_self e rest
    rw [hchar.1] at he
    have hne := awin_slot_ne_of_lt w ps hlt e (suffixMins_mem he)
    rw [← hchar.2.1] at hne
    exact hne hslot
  · intro e he hle
    show e ∈ truncGt (fun b => b.2.1) hash q.popExpired.deq
    have h1 : e ∈ q.popExpired.deq.reverse := List.mem_reverse.mpr he
    have h2 : q.popExpired.deq.reverse =
        q.popExpired.deq.reverse.takeWhile (fun b => decide (hash < b.2.1)) ++
        q.popExpired.deq.reverse.dropWhile (fun b => decide (hash < b.2.1)) :=
      (List.takeWhile_append_dropWhile _ _).symm
    rw [h2] at h1
    rcases List.mem_append.mp h1 with htw | hdw
    · have hp := List.mem_takeWhile_imp htw
      simp only [decide_eq_true_eq] at hp
      omega
    · rw [truncGt]
      exact List.mem_reverse.mpr hdw

/-- Witness for C4: the decomposition at a concrete state. -/
theorem spec_C4_wit :
    (⟨[(1, 2, 0)], 3, fun _ => 0, 1⟩ : MinimizerQueue Nat).insert_with_hash 9 1 =
      MinimizerQueue.advanceSlot (MinimizerQueue.appendNew 9 1
        (MinimizerQueue.dropDominated 1
          (⟨[(1, 2, 0)], 3, fun _ => 0, 1⟩ : MinimizerQueue Nat).popExpired)) :=
  (spec_C4 ⟨[(1, 2, 0)], 3, fun _ => 0, 1⟩ 9 1 3 (by decide) (fun _ => 0) []
    ⟨[], 3, 0⟩ 0).1

/-- C5 (code bug): at width 32769, after 32769 insertions with strictly
decreasing hashes, the tie group is the single front entry whose relative
position by the claimed formula is 32768 (maximal centrality trivially),
yet `get_inner_min_pos` returns position 1 — not the relative position of
any tie-group entry — because of the same `u16` overflow of
`width - pos + slot` (debug builds panic on this input). -/
theorem spec_C5_bug :
    (decRun 32769 32769 32769).get_inner_min_pos = some (32768, 1, none) ∧
    (decRun 32769 32769 32769).deq = [(32768, 1, 32768)] ∧
    (decRun 32769 32769 32769).pos = 0 ∧
    (32769 - 0 + 32768) % 32769 = 32768 ∧
    (1 : Nat) ≠ 32768 := by
  rw [decRun_closed 32769 32769 (by decide) 32769 (by decide) (by decide)]
  refine ⟨?_, ?_, ?_, ?_, ?_⟩ <;> decide

/-- C6: the explicit queue driven by `insert_with_hash` and the implicit
queue driven by `insert_hash` agree after any common hash sequence:
`is_empty`, `multiple_mins`, the position component of `get_min_pos`, and
the positions (including the optional second candidate) of
`get_inner_min_pos` coincide. -/
theorem spec_C6 {T : Type} (w : Nat) (f : T → Nat) (ps : List (T × Nat)) :
    (runI w (ps.map (fun p => p.2))).is_empty = (runQ w f ps).is_empty ∧
    (runI w (ps.map (fun p => p.2))).get_min_pos
      = (runQ w f ps).get_min_pos.map (fun r => r.2) ∧
    (runI w (ps.map (fun p => p.2))).get_inner_min_pos
      = (runQ w f ps).get_inner_min_pos.map
          (fun r => (r.2.1, r.2.2.map (fun c => c.2))) ∧
    (runI w (ps.map (fun p => p.2))).multiple_mins = (runQ w f ps).multiple_mins := by
  rw [runI_eq_impOf w f ps]
  exact ⟨impOf_is_empty _, impOf_get_min_pos _, impOf_get_inner_min_pos _,
    impOf_multiple_mins _⟩

/-- C7: two queues constructed with the same width and the same seed and
fed the identical input sequence produce identical results for every query
after every insertion. -/
theorem spec_C7 {T : Type} (hashFamily : Nat → T → Nat) (w seed : Nat)
    (xs : List T) (q1 q2 : MinimizerQueue T)
    (h1 : q1 = MinimizerQueue.with_seed hashFamily w seed)
    (h2 : q2 = MinimizerQueue.with_seed hashFamily w seed) :
    obsTrace q1 xs = obsTrace q2 xs := by
  subst h1
  subst h2
  rfl

/-- Witness for C7 at width 3, seed 5, inputs `[1, 2]`. -/
theorem spec_C7_wit :
    obsTrace (MinimizerQueue.with_seed (fun s x => x + s) 3 5) [1, 2] =
      obsTrace (MinimizerQueue.with_seed (fun s x => x + s) 3 5) [1, 2] :=
  spec_C7 (fun s x => x + s) 3 5 [1, 2] _ _ rfl rfl

/-- C8: `clear` empties the deque and leaves the slot counter and the width
unchanged, for both queue variants. -/
theorem spec_C8 {T : Type} (q : MinimizerQueue T) (p : ImplicitMinimizerQueue) :
    q.clear.is_empty = true ∧ q.clear.pos = q.pos ∧ q.clear.width = q.width ∧
    p.clear.is_empty = true ∧ p.clear.pos = p.pos ∧ p.clear.width = p.width :=
  ⟨rfl, rfl, rfl, rfl, rfl, rfl⟩

/-- C9: on an empty deque (fresh queue or after `clear`) every minimum
accessor reports the violated precondition (`none`, the model of the
`debug_assert!`/panic); on a non-empty deque the assertion never fires and
every accessor returns a value (all internal accesses are total). -/
theorem spec_C9 {T : Type} (q : MinimizerQueue T) (p : ImplicitMinimizerQueue)
    (w : Nat) (f : T → Nat) :
    (q.deq = [] → q.get_min = none ∧ q.get_min_pos = none ∧
      q.get_inner_min_pos = none) ∧
    (q.deq ≠ [] → q.get_min.isSome ∧ q.get_min_pos.isSome ∧
      q.get_inner_min_pos.isSome) ∧
    (p.deq = [] → p.get_min_pos = none ∧ p.get_inner_min_pos = none) ∧
    (p.deq ≠ [] → p.get_min_pos.isSome ∧ p.get_inner_min_pos.isSome) ∧
    (MinimizerQueue.with_hasher w f : MinimizerQueue T).get_min = none ∧
    q.clear.get_min = none := by
  obtain ⟨deq, width, hashf, pos⟩ := q
  obtain ⟨deqI, widthI, posI⟩ := p
  refine ⟨?_, ?_, ?_, ?_, rfl, rfl⟩
  · intro h
    simp only at h
    subst h
    exact ⟨rfl, rfl, rfl⟩
  · intro h
    simp only at h
    cases deq with
    | nil => exact absurd rfl h
    | cons e rest => exact ⟨rfl, rfl, rfl⟩
  · intro h
    simp only at h
    subst h
    exact ⟨rfl, rfl⟩
  · intro h
    simp only at h
    cases deqI with
    | nil => exact absurd rfl h
    | cons e rest => exact ⟨rfl, rfl⟩

/-- Witness for C9: the empty-queue case at a concrete empty state. -/
theorem spec_C9_wit :
    (⟨[], 3, fun _ => 0, 0⟩ : MinimizerQueue Nat).get_min = none ∧
    (⟨[], 3, fun _ => 0, 0⟩ : MinimizerQueue Nat).get_min_pos = none ∧
    (⟨[], 3, fun _ => 0, 0⟩ : MinimizerQueue Nat).get_inner_min_pos = none :=
  (spec_C9 ⟨[], 3, fun _ => 0, 0⟩ ⟨[], 3, 0⟩ 3 (fun _ => 0)).1 rfl

/-- C10: after every insert into a queue with `pos < W` (every reachable
state), the deque is non-empty, its back entry is the just-inserted value
with the new hash and the pre-insert slot counter as slot, and
`(W - slot_counter + slot) mod W = W - 1` for the post-insert counter: the
newest element sits at the rightmost window position. -/
theorem spec_C10 {T : Type} (q : MinimizerQueue T) (x : T) (hash w : Nat)
    (hq : q.width = w) (hw : 1 ≤ w) (hp : q.pos < w) :
    (q.insert_with_hash x hash).deq ≠ [] ∧
    (q.insert_with_hash x hash).deq.getLast? = some (x, hash, q.pos) ∧
    (w - (q.insert_with_hash x hash).pos + q.pos) % w = w - 1 := by
  refine ⟨?_, ?_, ?_⟩
  · rw [MinimizerQueue.insert_decomp]
    show truncGt (fun b => b.2.1) hash q.popExpired.deq ++
      [(x, hash, q.popExpired.pos)] ≠ []
    simp
  · rw [MinimizerQueue.insert_decomp]
    show (truncGt (fun b => b.2.1) hash q.popExpired.deq ++
      [(x, hash, q.popExpired.pos)]).getLast? = _
    rw [List.getLast?_concat, popExpired_pos]
  · rw [insert_with_hash_pos, hq]
    by_cases hpe : q.pos + 1 = w
    · rw [hpe, Nat.mod_self, Nat.sub_zero, Nat.add_mod_left,
        Nat.mod_eq_of_lt hp]
      omega
    · have hlt : q.pos + 1 < w := by omega
      rw [Nat.mod_eq_of_lt hlt]
      have harith : w - (q.pos + 1) + q.pos = w - 1 := by omega
      rw [harith, Nat.mod_eq_of_lt (by omega)]

/-- Witness for C10 at a concrete state of width 3. -/
theorem spec_C10_wit :
    ((⟨[], 3, fun _ => 0, 1⟩ : MinimizerQueue Nat).insert_with_hash 7 5).deq.getLast?
      = some (7, 5, 1) :=
  (spec_C10 ⟨[], 3, fun _ => 0, 1⟩ 7 5 3 rfl (by decide) (by decide)).2.1
